import Mathlib

/-
Verification of the temporal activation cache core
(`backend/app/services/research/temporal_cache.py`).

Shallow embedding notes:
* `time.time()` is modelled by a per-cache monotone counter `clock`: every call
  to the wall clock returns a fresh, strictly larger tick (timestamps are `Nat`).
* Tensor contents are never inspected by the cache/graph/engine logic, so an
  activation tensor of shape `(1, n)` is modelled by its element count `n`
  (`nelement`); float32 gives `element_size() = 4`, hence `size_bytes = 4 * n`.
* A Python dict is modelled as an insertion-ordered association list: updating
  a present key keeps its position, inserting a fresh key appends.
* Python sets of strings are modelled by `Finset String`; wherever the source
  iterates over a set, the model iterates in sorted order (the claims proved
  here are insensitive to the iteration order of set elements).
* `int(duration_seconds * sample_rate)` is abstracted by passing the resulting
  sample count `num_samples` directly; `frame_size` is positive in every
  construction the source performs (default 512).
* Writing a `(1, frame_size)` tensor into `current_audio[:, s:e]` succeeds
  exactly when the slice has width `frame_size`, i.e. when `e ≤ num_samples`;
  otherwise torch raises (modelled as an `Except.error` carrying the engine
  state at the moment of the raise, since Python exceptions leave prior
  mutations of `self` in place).
-/

/-- One cache entry (`CacheEntry` dataclass): timestamp, activations
(represented by the tensor's element count), dependency keys, hit count and
byte footprint. -/
structure CacheEntry where
  timestamp : Nat
  nelement : Nat
  dependencies : Finset String
  hit_count : Nat
  size_bytes : Nat
deriving DecidableEq

/-- `TemporalCache` state: bounded store with statistics, plus the modelled
wall clock. `current_size_bytes` is a Python `int`, hence `Int` here. -/
structure TemporalCache where
  max_size_bytes : Nat
  eviction_policy : String
  cache : List (String × CacheEntry)
  current_size_bytes : Int
  hits : Nat
  misses : Nat
  evictions : Nat
  clock : Nat
deriving DecidableEq

/-- `TemporalCache.__init__` with the capacity already converted to bytes
(`int(max_size_mb * 1024 * 1024)`). -/
def mkTemporalCache (max_size_bytes : Nat) (policy : String) : TemporalCache :=
  { max_size_bytes := max_size_bytes
    eviction_policy := policy
    cache := []
    current_size_bytes := 0
    hits := 0
    misses := 0
    evictions := 0
    clock := 0 }

/-- Dict update `d[k] = e`: replace in place if the key is present (keeping its
position, as Python dicts do), else append at the end. -/
def setEntry : List (String × CacheEntry) → String → CacheEntry → List (String × CacheEntry)
  | [], k, e => [(k, e)]
  | (k', e') :: t, k, e => if k' = k then (k, e) :: t else (k', e') :: setEntry t k e

/-- Dict deletion `del d[k]`: remove the (first) binding of `k`. -/
def eraseKey : List (String × CacheEntry) → String → List (String × CacheEntry)
  | [], _ => []
  | (k', e') :: t, k => if k' = k then t else (k', e') :: eraseKey t k

/-- Python's stable `min(d.keys(), key=f)` over the dict: fold keeping the
first pair attaining the minimal measure. -/
def minByMeasure (f : CacheEntry → Nat) : List (String × CacheEntry) → Option (String × CacheEntry)
  | [] => none
  | p :: t => some (t.foldl (fun best q => if f q.2 < f best.2 then q else best) p)

/-- Total `size_bytes` of the live entries (the quantity the spec's capacity
invariant is about). -/
def sumSizes (l : List (String × CacheEntry)) : Int :=
  (l.map (fun p => (p.2.size_bytes : Int))).sum

/-- `TemporalCache.get`: on a hit, bump `hits`, bump the entry's `hit_count`,
refresh its timestamp to the current clock tick, and return the activations
(their element count); on a miss, bump `misses` and return `none`. -/
def TemporalCache.get (c : TemporalCache) (key : String) : TemporalCache × Option Nat :=
  match List.lookup key c.cache with
  | some e =>
      let e' : CacheEntry :=
        { e with hit_count := e.hit_count + 1, timestamp := c.clock }
      ({ c with hits := c.hits + 1
                cache := setEntry c.cache key e'
                clock := c.clock + 1 }, some e.nelement)
  | none => ({ c with misses := c.misses + 1 }, none)

/-- `TemporalCache._evict_one`: under "lru" remove the entry with the minimal
timestamp, under "lfu" the one with the minimal `hit_count`; under any other
policy string no branch is taken and nothing is removed.  (The `none` inner
cases are unreachable: `put` only evicts from a non-empty cache, and the
minimal key is looked up in the same dict it was drawn from.) -/
def evict_one (c : TemporalCache) : TemporalCache :=
  if c.eviction_policy = "lru" then
    match minByMeasure (fun e => e.timestamp) c.cache with
    | none => c
    | some (k, _) =>
        match List.lookup k c.cache with
        | none => c
        | some e =>
            { c with current_size_bytes := c.current_size_bytes - (e.size_bytes : Int)
                     cache := eraseKey c.cache k
                     evictions := c.evictions + 1 }
  else if c.eviction_policy = "lfu" then
    match minByMeasure (fun e => e.hit_count) c.cache with
    | none => c
    | some (k, _) =>
        match List.lookup k c.cache with
        | none => c
        | some e =>
            { c with current_size_bytes := c.current_size_bytes - (e.size_bytes : Int)
                     cache := eraseKey c.cache k
                     evictions := c.evictions + 1 }
  else c

/-- The `while self.current_size_bytes + size_bytes > self.max_size_bytes`
eviction loop of `TemporalCache.put`, with explicit fuel; `none` models a loop
that does not terminate within `fuel` iterations.  On exit, the `Bool` is
`true` when the entry is to be stored and `false` when the put is discarded
(cache empty but the buffer still does not fit). -/
def putLoop (size : Nat) : Nat → TemporalCache → Option (TemporalCache × Bool)
  | 0, _ => none
  | fuel + 1, c =>
      if (c.max_size_bytes : Int) < c.current_size_bytes + (size : Int) then
        if c.cache = [] then some (c, false)
        else putLoop size fuel (evict_one c)
      else some (c, true)

/-- `TemporalCache.put`: compute the byte size, run the eviction loop, then
either discard (too large even for an empty cache) or store the new entry and
add its size to the running total.  Note the source never subtracts a replaced
entry's size.  `none` models a `put` whose eviction loop never terminates
(possible only for unrecognized eviction policies: `c.cache.length + 1`
iterations always suffice when the policy actually evicts, see the C10
theorem). -/
def TemporalCache.put (c : TemporalCache) (key : String) (nelement : Nat)
    (dependencies : Finset String) : Option TemporalCache :=
  let size_bytes := 4 * nelement
  match putLoop size_bytes (c.cache.length + 1) c with
  | none => none
  | some (c', false) => some c'
  | some (c', true) =>
      let e : CacheEntry :=
        { timestamp := c'.clock
          nelement := nelement
          dependencies := dependencies
          hit_count := 0
          size_bytes := size_bytes }
      some { c' with cache := setEntry c'.cache key e
                     current_size_bytes := c'.current_size_bytes + (size_bytes : Int)
                     clock := c'.clock + 1 }

/-- `TemporalCache.invalidate`: for each key that is present, subtract its size
and delete it; absent keys are no-ops.  The source iterates over a set of
keys; the model takes the keys as a list (the result is order-insensitive). -/
def TemporalCache.invalidate (c : TemporalCache) (keys : List String) : TemporalCache :=
  keys.foldl
    (fun c key =>
      match List.lookup key c.cache with
      | some e =>
          { c with current_size_bytes := c.current_size_bytes - (e.size_bytes : Int)
                   cache := eraseKey c.cache key }
      | none => c)
    c

/-- `TemporalCache.clear`: drop all entries and reset the running size;
statistics counters are kept. -/
def TemporalCache.clear (c : TemporalCache) : TemporalCache :=
  { c with cache := [], current_size_bytes := 0 }

/-- Code-point lexicographic comparison of character lists, the order Python's
`sorted` uses on strings. -/
def lexLe : List Char → List Char → Bool
  | [], _ => true
  | _ :: _, [] => false
  | c :: cs, d :: ds =>
      if c.toNat < d.toNat then true
      else if d.toNat < c.toNat then false
      else lexLe cs ds

/-- Python's string order: code-point lexicographic. -/
def strLe (a b : String) : Bool := lexLe a.data b.data

/-- The string order as a relation. -/
def StrLe (a b : String) : Prop := strLe a b = true

instance : DecidableRel StrLe := fun a b => instDecidableEqBool (strLe a b) true

theorem lexLe_total (a b : List Char) : lexLe a b = true ∨ lexLe b a = true := by
  induction a generalizing b with
  | nil => left; rfl
  | cons c cs ih =>
      cases b with
      | nil => right; rfl
      | cons d ds =>
          rcases Nat.lt_trichotomy c.toNat d.toNat with h | h | h
          · left; simp [lexLe, h]
          · rcases ih ds with h' | h'
            · left; simp [lexLe, h, h']
            · right; simp [lexLe, h, h']
          · right; simp [lexLe, h, Nat.lt_asymm h]

theorem lexLe_trans {a b c : List Char} (hab : lexLe a b = true)
    (hbc : lexLe b c = true) : lexLe a c = true := by
  induction a generalizing b c with
  | nil => rfl
  | cons x xs ih =>
      cases b with
      | nil => simp [lexLe] at hab
      | cons y ys =>
          cases c with
          | nil => simp [lexLe] at hbc
          | cons z zs =>
              simp only [lexLe] at hab hbc ⊢
              rcases Nat.lt_trichotomy x.toNat y.toNat with h₁ | h₁ | h₁ <;>
                rcases Nat.lt_trichotomy y.toNat z.toNat with h₂ | h₂ | h₂ <;>
                  simp_all [Nat.lt_asymm, Nat.lt_irrefl] <;>
                    first
                      | (exact absurd (Nat.lt_trans h₁ h₂) (by omega))
                      | (simp [Nat.lt_trans h₁ h₂])
                      | omega
                      | exact ih hab hbc

theorem lexLe_antisymm {a b : List Char} (hab : lexLe a b = true)
    (hba : lexLe b a = true) : a = b := by
  induction a generalizing b with
  | nil =>
      cases b with
      | nil => rfl
      | cons y ys => simp [lexLe] at hba
  | cons x xs ih =>
      cases b with
      | nil => simp [lexLe] at hab
      | cons y ys =>
          simp only [lexLe] at hab hba
          rcases Nat.lt_trichotomy x.toNat y.toNat with h | h | h
          · simp [h, Nat.lt_asymm h] at hba
          · have hx : x = y := Char.eq_of_val_eq (by
              apply UInt32.eq_of_val_eq
              exact Fin.ext h)
            subst hx
            simp only [Nat.lt_irrefl, if_false] at hab hba
            exact congrArg (x :: ·) (ih hab hba)
          · simp [h, Nat.lt_asymm h] at hab

instance : IsTotal String StrLe :=
  ⟨fun a b => lexLe_total a.data b.data⟩

instance : IsTrans String StrLe :=
  ⟨fun _ _ _ hab hbc => lexLe_trans hab hbc⟩

instance : IsAntisymm String StrLe :=
  ⟨fun a b hab hba => by
    cases a; cases b
    exact congrArg String.mk (lexLe_antisymm hab hba)⟩

/-- `sorted(s)` for a Python set of strings: the unique `StrLe`-sorted listing
of the elements (insertion sort, lifted through the multiset quotient). -/
def sortKeys (s : Finset String) : List String :=
  Quot.liftOn s.val (List.insertionSort StrLe)
    (fun l₁ l₂ h =>
      List.eq_of_perm_of_sorted
        (((l₁.perm_insertionSort StrLe).trans h).trans
          (l₂.perm_insertionSort StrLe).symm)
        (List.sorted_insertionSort StrLe l₁)
        (List.sorted_insertionSort StrLe l₂))

theorem sortKeys_sorted (s : Finset String) : List.Sorted StrLe (sortKeys s) := by
  rcases s with ⟨ms, hnd⟩
  induction ms using Quotient.ind with
  | _ l => exact List.sorted_insertionSort StrLe l

theorem mem_sortKeys {s : Finset String} {a : String} :
    a ∈ sortKeys s ↔ a ∈ s := by
  rcases s with ⟨ms, hnd⟩
  induction ms using Quotient.ind with
  | _ l => exact (l.perm_insertionSort StrLe).mem_iff

theorem length_sortKeys (s : Finset String) : (sortKeys s).length = s.card := by
  rcases s with ⟨ms, hnd⟩
  induction ms using Quotient.ind with
  | _ l => exact (l.perm_insertionSort StrLe).length_eq

/-- `DependencyGraph` keeps two mirrored adjacency maps (`graph` and
`reverse_graph`); since `add_dependency` is the only mutator and always updates
both, the state is exactly a set of `(node, depends_on)` edges. -/
abbrev DependencyGraph := Finset (String × String)

/-- `DependencyGraph.add_dependency`: record that `node` depends on
`depends_on` (idempotent, set semantics). -/
def add_dependency (g : DependencyGraph) (node depends_on : String) : DependencyGraph :=
  insert (node, depends_on) g

/-- `DependencyGraph.get_dependencies`: `self.graph.get(node_id, set())`. -/
def get_dependencies (g : DependencyGraph) (node : String) : Finset String :=
  (g.filter (fun p => p.1 = node)).image Prod.snd

/-- `DependencyGraph.get_dependents`: `self.reverse_graph.get(node_id, set())`. -/
def get_dependents (g : DependencyGraph) (node : String) : Finset String :=
  (g.filter (fun p => p.2 = node)).image Prod.fst

/-- One edge of the dependents (reverse) relation: `b` depends on `a`. -/
def DependsRel (g : DependencyGraph) (a b : String) : Prop :=
  b ∈ get_dependents g a

/-- The BFS loop of `DependencyGraph.get_affected_nodes`: pop one queue node,
add its not-yet-seen dependents to `affected` and enqueue them.  Fuel is an
explicit bound on the number of loop iterations; the fuel chosen in
`get_affected_nodes` below is proven sufficient, so the `0` branch is
unreachable there. -/
def getAffectedAux (g : DependencyGraph) : Nat → Finset String → List String → Finset String
  | 0, affected, _ => affected
  | _ + 1, affected, [] => affected
  | fuel + 1, affected, node :: queue =>
      let newOnes := (get_dependents g node).filter (fun d => d ∉ affected)
      getAffectedAux g fuel (affected ∪ newOnes) (queue ++ sortKeys newOnes)

/-- `DependencyGraph.get_affected_nodes`: BFS over the reverse graph from all
of `changed`.  Every iteration either only shortens the queue or moves a node
of the graph's dependent-side into `affected`, so `changed.card + g.card`
iterations always suffice. -/
def get_affected_nodes (g : DependencyGraph) (changed : Finset String) : Finset String :=
  getAffectedAux g (changed.card + g.card) changed (sortKeys changed)


/-- `EditOperation` descriptor; only `affected_region` (sample indices) is
consumed by `apply_edit`. -/
structure EditOperation where
  edit_id : String
  edit_type : String
  start_time : ℚ
  end_time : ℚ
  affected_region : Nat × Nat
deriving DecidableEq

/-- The fields of the `apply_edit` metrics dict that the cache/engine logic
determines; `latency_ms` and `speedup` are wall-clock measurements and are not
modelled. -/
structure Metrics where
  frames_recomputed : Nat
  frames_total : Nat
  recompute_ratio : ℚ
deriving DecidableEq

/-- `SparseInferenceEngine` state; the model (`nn.Module`) is never invoked
except as a placeholder `randn`, so it is not part of the state.
`current_audio` stores the length (sample count) of the owned buffer. -/
structure SparseInferenceEngine where
  frame_size : Nat
  dependency_graph : DependencyGraph
  cache : TemporalCache
  current_audio : Option Nat
  current_length_frames : Nat
deriving DecidableEq

/-- `SparseInferenceEngine.__init__` (capacity already in bytes; the cache is
constructed with the default "lru" policy). -/
def mkEngine (cache_size_bytes : Nat) (frame_size : Nat) : SparseInferenceEngine :=
  { frame_size := frame_size
    dependency_graph := (∅ : DependencyGraph)
    cache := mkTemporalCache cache_size_bytes "lru"
    current_audio := none
    current_length_frames := 0 }

/-- The cache key `f"frame_{i}"`. -/
def frame_id (i : Nat) : String := "frame_" ++ toString i

/-- `str.split(sep)` for a single separator character, over the character
list. -/
def splitCharsOn (sep : Char) : List Char → List (List Char)
  | [] => [[]]
  | c :: rest =>
      match splitCharsOn sep rest with
      | [] => [[]]
      | seg :: segs => if c = sep then [] :: seg :: segs else (c :: seg) :: segs

/-- `int(...)` on a decimal digit string (every key parsed by `apply_edit` has
the shape `frame_<digits>`, where `int` succeeds). -/
def digitsToNat (cs : List Char) : Nat :=
  cs.foldl (fun acc c => acc * 10 + (c.toNat - 48)) 0

/-- `int(frame_id.split('_')[1])`: recover a frame index from its key. -/
def frameIdxOf (s : String) : Nat :=
  digitsToNat ((splitCharsOn '_' s.data).getD 1 [])

/-- One iteration of the frame loop of `generate_full`: register the causal
dependency `frame_i → frame_(i-1)` (for `i > 0`) and cache the frame's
activations (a `(1, frame_size)` slice). -/
def generateFullStep (e : SparseInferenceEngine) (i : Nat) : SparseInferenceEngine :=
  let deps : Finset String := if 0 < i then {frame_id (i - 1)} else ∅
  let g := if 0 < i then add_dependency e.dependency_graph (frame_id i) (frame_id (i - 1))
           else e.dependency_graph
  let c := (TemporalCache.put e.cache (frame_id i) e.frame_size deps).getD e.cache
  { e with dependency_graph := g, cache := c }

/-- `SparseInferenceEngine.generate_full` with
`num_samples = int(duration_seconds * sample_rate)` passed directly: generate
the placeholder buffer, cache `num_samples / frame_size` frames with the
linear dependency chain, and install the new buffer and frame count. -/
def generate_full (e : SparseInferenceEngine) (num_samples : Nat) : SparseInferenceEngine :=
  let num_frames := num_samples / e.frame_size
  let e' := (List.range num_frames).foldl generateFullStep e
  { e' with current_audio := some num_samples, current_length_frames := num_frames }

/-- The directly changed frame keys of an edit:
`{f"frame_{i}" for i in range(start_frame, end_frame + 1)}` where the frame
range comes from integer division of the sample region by `frame_size`. -/
def changedFrames (e : SparseInferenceEngine) (edit : EditOperation) : Finset String :=
  (Finset.Icc (edit.affected_region.1 / e.frame_size) (edit.affected_region.2 / e.frame_size)).image frame_id

/-- `affected_frames = self.dependency_graph.get_affected_nodes(changed_frames)`. -/
def affectedFrames (e : SparseInferenceEngine) (edit : EditOperation) : Finset String :=
  get_affected_nodes e.dependency_graph (changedFrames e edit)

/-- `sorted(affected_frames)`: the exact order in which `apply_edit` recomputes
frames — Python sorts the *strings* lexicographically. -/
def recomputeList (e : SparseInferenceEngine) (edit : EditOperation) : List String :=
  sortKeys (affectedFrames e edit)

/-- `all(self.cache.get(dep) is not None for dep in dependencies)`: short-
circuiting conjunction whose `get` calls mutate the cache (hit/miss counters,
timestamps). -/
def checkDeps : TemporalCache → List String → TemporalCache × Bool
  | c, [] => (c, true)
  | c, d :: ds =>
      match TemporalCache.get c d with
      | (c', some _) => checkDeps c' ds
      | (c', none) => (c', false)

/-- The body of the recompute loop of `apply_edit` for one frame key: probe the
cached dependencies, regenerate the frame (fast and slow path both produce a
fresh `(1, frame_size)` placeholder), store it in the cache, then write it
into `current_audio[:, idx*fs:(idx+1)*fs]` — which raises a `TypeError` when
no buffer exists, and a shape-mismatch `RuntimeError` when the slice is
shorter than the frame.  The error payload carries the mutated engine. -/
def recomputeFrame (e : SparseInferenceEngine) (fid : String) :
    Except (String × SparseInferenceEngine) SparseInferenceEngine :=
  let idx := frameIdxOf fid
  let deps := get_dependencies e.dependency_graph fid
  let c₁ := (checkDeps e.cache (sortKeys deps)).1
  let c₂ := (TemporalCache.put c₁ fid e.frame_size deps).getD c₁
  let e₂ := { e with cache := c₂ }
  match e.current_audio with
  | none => .error ("TypeError: NoneType object is not subscriptable", e₂)
  | some num_samples =>
      if (idx + 1) * e.frame_size ≤ num_samples then .ok e₂
      else .error ("RuntimeError: shape mismatch in slice assignment", e₂)

/-- `SparseInferenceEngine.apply_edit`: derive the affected closure, invalidate
it, recompute each affected frame in `sorted` (string) order, then report the
metrics.  Errors model the Python exceptions (torch slice-assignment failures
and the `ZeroDivisionError` in `recompute_ratio` when no frame exists); the
payload carries the engine state at the raise, since `self` keeps all
mutations performed before an exception. -/
def apply_edit (e : SparseInferenceEngine) (edit : EditOperation) :
    Except (String × SparseInferenceEngine) (SparseInferenceEngine × Metrics) :=
  let affected := affectedFrames e edit
  let e₁ := { e with cache := e.cache.invalidate (sortKeys affected) }
  match (recomputeList e edit).foldlM recomputeFrame e₁ with
  | .error p => .error p
  | .ok e₂ =>
      if e.current_length_frames = 0 then
        .error ("ZeroDivisionError: division by zero", e₂)
      else
        .ok (e₂,
          { frames_recomputed := affected.card
            frames_total := e.current_length_frames
            recompute_ratio := (affected.card : ℚ) / (e.current_length_frames : ℚ) })

/-- One externally invocable cache operation (used to quantify over all
operation sequences). -/
inductive CacheOp where
  | put (key : String) (nelement : Nat) (deps : Finset String)
  | get (key : String)
  | invalidate (keys : List String)
  | clear
deriving DecidableEq

/-- Apply one operation.  A `put` whose eviction loop would not terminate
(only possible under an unrecognized policy) never completes, so no completed
state arises from it; the model keeps the previous state in that case. -/
def stepOp (c : TemporalCache) : CacheOp → TemporalCache
  | .put k n d => (TemporalCache.put c k n d).getD c
  | .get k => (TemporalCache.get c k).1
  | .invalidate ks => c.invalidate ks
  | .clear => c.clear

/-- Run a sequence of cache operations from a given state. -/
def runOps (c : TemporalCache) (ops : List CacheOp) : TemporalCache :=
  ops.foldl stepOp c

/-- Projection: the metrics of a successful `apply_edit`. -/
def resultMetrics :
    Except (String × SparseInferenceEngine) (SparseInferenceEngine × Metrics) → Option Metrics
  | .ok (_, m) => some m
  | .error _ => none

/-- Projection: the error message of a failed `apply_edit`. -/
def resultError :
    Except (String × SparseInferenceEngine) (SparseInferenceEngine × Metrics) → Option String
  | .ok _ => none
  | .error (msg, _) => some msg

/-- Projection: the engine state left behind by a failed `apply_edit`. -/
def resultErrorState :
    Except (String × SparseInferenceEngine) (SparseInferenceEngine × Metrics) →
      Option SparseInferenceEngine
  | .ok _ => none
  | .error (_, st) => some st

/-- The 10-frame engine of the spec's recompute-minimality scenario:
default 1000 MB cache, `frame_size = 512`, `num_samples = 5120`. -/
def e10 : SparseInferenceEngine := generate_full (mkEngine 1048576000 512) 5120

/-- A 12-frame engine (6144 samples), exposing two-digit frame indices. -/
def e12 : SparseInferenceEngine := generate_full (mkEngine 1048576000 512) 6144

/-- A freshly constructed engine on which `generate_full` has never run. -/
def eFresh : SparseInferenceEngine := mkEngine 1048576000 512

/-- An edit whose sample region `(4096, 4200)` maps to frame index 8 only. -/
def edit8 : EditOperation :=
  { edit_id := "edit_1", edit_type := "modify", start_time := 0, end_time := 0
    affected_region := (4096, 4200) }

/-- An edit whose sample region `(1024, 1124)` maps to frame index 2 only. -/
def edit2 : EditOperation :=
  { edit_id := "edit_2", edit_type := "modify", start_time := 0, end_time := 0
    affected_region := (1024, 1124) }

/-- An edit whose sample region `(4096, 5600)` maps to frames 8..10 — its end
frame lies beyond the last valid index of a 10-frame buffer. -/
def edit5 : EditOperation :=
  { edit_id := "edit_3", edit_type := "modify", start_time := 0, end_time := 0
    affected_region := (4096, 5600) }

/-- An edit whose sample region starts at the beginning of the buffer. -/
def edit0 : EditOperation :=
  { edit_id := "edit_0", edit_type := "modify", start_time := 0, end_time := 0
    affected_region := (0, 100) }

/-- The linear chain graph with edges `frame_i -> frame_(i-1)` for
`i = 1..9`. -/
def chainGraph : DependencyGraph :=
  (List.range 9).foldl (fun g i => add_dependency g (frame_id (i + 1)) (frame_id i))
    (∅ : DependencyGraph)

/-- A cache state reached by two same-key puts: the running size total (80)
has drifted above the true stored total (40). -/
def cacheReplaced : TemporalCache :=
  runOps (mkTemporalCache 100 "lru") [.put "k" 10 ∅, .put "k" 10 ∅]

/-- The replaced-put cache, after a further put has evicted everything and an
oversized put has been discarded: zero entries but a positive running total. -/
def cacheGhost : TemporalCache :=
  runOps (mkTemporalCache 100 "lru")
    [.put "k" 10 ∅, .put "k" 10 ∅, .put "j" 8 ∅, .put "big" 50 ∅]

/-- The size-accounting invariant: the stored entries never sum to more than
the running total, which never exceeds the capacity. -/
def SumInv (c : TemporalCache) : Prop :=
  sumSizes c.cache ≤ c.current_size_bytes ∧
  c.current_size_bytes ≤ (c.max_size_bytes : Int)

/-- The clock invariant: every stored timestamp was taken at an earlier tick
than the cache's current clock. -/
def ClockInv (c : TemporalCache) : Prop :=
  ∀ p ∈ c.cache, p.2.timestamp < c.clock

/- ------------------------------------------------------------------ -/
/- Correctness of the BFS closure (`get_affected_nodes`).              -/
/- ------------------------------------------------------------------ -/

theorem get_dependents_subset_image (g : DependencyGraph) (n : String) :
    get_dependents g n ⊆ g.image Prod.fst :=
  Finset.image_subset_image (Finset.filter_subset _ g)

theorem getAffectedAux_sound (g : DependencyGraph) (P : String → Prop)
    (hP : ∀ a b, P a → DependsRel g a b → P b) :
    ∀ fuel (affected : Finset String) (queue : List String),
      (∀ x ∈ affected, P x) → (∀ n ∈ queue, n ∈ affected) →
      ∀ x ∈ getAffectedAux g fuel affected queue, P x := by
  intro fuel
  induction fuel with
  | zero => intro affected queue ha _ x hx; exact ha x hx
  | succ fuel ih =>
      intro affected queue ha hq x hx
      cases queue with
      | nil => exact ha x hx
      | cons node queue =>
          refine ih (affected ∪ (get_dependents g node).filter (fun d => d ∉ affected))
            (queue ++ sortKeys ((get_dependents g node).filter (fun d => d ∉ affected)))
            ?_ ?_ x hx
          · intro y hy
            rcases Finset.mem_union.mp hy with hy | hy
            · exact ha y hy
            · have hdep : y ∈ get_dependents g node := (Finset.mem_filter.mp hy).1
              exact hP node y (ha node (hq node (List.mem_cons_self node queue))) hdep
          · intro n hn
            rcases List.mem_append.mp hn with hn | hn
            · exact Finset.mem_union_left _ (hq n (List.mem_cons_of_mem _ hn))
            · exact Finset.mem_union_right _ (mem_sortKeys.mp hn)

theorem getAffectedAux_main (g : DependencyGraph) :
    ∀ fuel (affected : Finset String) (queue : List String),
      (∀ n ∈ queue, n ∈ affected) →
      (∀ a ∈ affected, a ∉ queue → ∀ b, DependsRel g a b → b ∈ affected) →
      queue.length + ((g.image Prod.fst) \ affected).card ≤ fuel →
      affected ⊆ getAffectedAux g fuel affected queue ∧
      (∀ a ∈ getAffectedAux g fuel affected queue, ∀ b, DependsRel g a b →
        b ∈ getAffectedAux g fuel affected queue) := by
  intro fuel
  induction fuel with
  | zero =>
      intro affected queue _ hcl hfuel
      have hqnil : queue = [] := by
        cases queue with
        | nil => rfl
        | cons a t => simp [List.length] at hfuel
      subst hqnil
      refine ⟨Finset.Subset.refl _, ?_⟩
      intro a ha b hb
      exact hcl a ha (List.not_mem_nil a) b hb
  | succ fuel ih =>
      intro affected queue hq hcl hfuel
      cases queue with
      | nil =>
          refine ⟨Finset.Subset.refl _, ?_⟩
          intro a ha b hb
          exact hcl a ha (List.not_mem_nil a) b hb
      | cons node queue =>
          have hnew_subset : ((get_dependents g node).filter (fun d => d ∉ affected)) ⊆
              (g.image Prod.fst) \ affected := by
            intro d hd
            rcases Finset.mem_filter.mp hd with ⟨hd₁, hd₂⟩
            exact Finset.mem_sdiff.mpr ⟨get_dependents_subset_image g node hd₁, hd₂⟩
          have hq' : ∀ n ∈ queue ++ sortKeys ((get_dependents g node).filter (fun d => d ∉ affected)),
              n ∈ affected ∪ (get_dependents g node).filter (fun d => d ∉ affected) := by
            intro n hn
            rcases List.mem_append.mp hn with hn | hn
            · exact Finset.mem_union_left _ (hq n (List.mem_cons_of_mem _ hn))
            · exact Finset.mem_union_right _ (mem_sortKeys.mp hn)
          have hcl' : ∀ a ∈ affected ∪ (get_dependents g node).filter (fun d => d ∉ affected),
              a ∉ queue ++ sortKeys ((get_dependents g node).filter (fun d => d ∉ affected)) →
              ∀ b, DependsRel g a b →
              b ∈ affected ∪ (get_dependents g node).filter (fun d => d ∉ affected) := by
            intro a ha hanot b hb
            by_cases hmem : a ∈ (get_dependents g node).filter (fun d => d ∉ affected)
            · exact absurd (List.mem_append.mpr (Or.inr (mem_sortKeys.mpr hmem))) hanot
            · have ha' : a ∈ affected := by
                rcases Finset.mem_union.mp ha with h | h
                · exact h
                · exact absurd h hmem
              by_cases hnode : a = node
              · subst hnode
                by_cases hbaff : b ∈ affected
                · exact Finset.mem_union_left _ hbaff
                · exact Finset.mem_union_right _ (Finset.mem_filter.mpr ⟨hb, hbaff⟩)
              · have hanotq : a ∉ node :: queue := by
                  intro hcon
                  rcases List.mem_cons.mp hcon with h | h
                  · exact hnode h
                  · exact hanot (List.mem_append.mpr (Or.inl h))
                exact Finset.mem_union_left _ (hcl a ha' hanotq b hb)
          have hfuel' : (queue ++ sortKeys ((get_dependents g node).filter (fun d => d ∉ affected))).length
              + ((g.image Prod.fst) \
                  (affected ∪ (get_dependents g node).filter (fun d => d ∉ affected))).card ≤ fuel := by
            have hsplit : (g.image Prod.fst) \
                (affected ∪ (get_dependents g node).filter (fun d => d ∉ affected)) =
                ((g.image Prod.fst) \ affected) \
                  ((get_dependents g node).filter (fun d => d ∉ affected)) := by
              ext x
              simp only [Finset.mem_sdiff, Finset.mem_union]
              tauto
            have hcard : ((g.image Prod.fst) \
                (affected ∪ (get_dependents g node).filter (fun d => d ∉ affected))).card
                = ((g.image Prod.fst) \ affected).card
                  - ((get_dependents g node).filter (fun d => d ∉ affected)).card := by
              rw [hsplit, Finset.card_sdiff hnew_subset]
            have hle := Finset.card_le_card hnew_subset
            have hlen : (queue ++ sortKeys ((get_dependents g node).filter (fun d => d ∉ affected))).length
                = queue.length + ((get_dependents g node).filter (fun d => d ∉ affected)).card := by
              rw [List.length_append, length_sortKeys]
            rw [hlen, hcard]
            simp only [List.length_cons] at hfuel
            omega
          have hstep := ih _ _ hq' hcl' hfuel'
          have hres : getAffectedAux g (fuel + 1) affected (node :: queue) =
              getAffectedAux g fuel
                (affected ∪ (get_dependents g node).filter (fun d => d ∉ affected))
                (queue ++ sortKeys ((get_dependents g node).filter (fun d => d ∉ affected))) := by
            simp [getAffectedAux]
          rw [hres]
          exact ⟨Finset.Subset.trans Finset.subset_union_left hstep.1, hstep.2⟩

/-- The extensional characterization of the BFS: the affected set is exactly
the set of nodes reachable from `changed` through the dependents relation. -/
theorem mem_get_affected_nodes (g : DependencyGraph) (changed : Finset String) (x : String) :
    x ∈ get_affected_nodes g changed ↔
      ∃ c ∈ changed, Relation.ReflTransGen (DependsRel g) c x := by
  constructor
  · intro hx
    refine getAffectedAux_sound g (fun y => ∃ c ∈ changed, Relation.ReflTransGen (DependsRel g) c y)
      ?_ _ changed (sortKeys changed) ?_ ?_ x hx
    · rintro a b ⟨c, hc, hr⟩ hab
      exact ⟨c, hc, hr.tail hab⟩
    · intro y hy
      exact ⟨y, hy, Relation.ReflTransGen.refl⟩
    · intro n hn
      exact mem_sortKeys.mp hn
  · rintro ⟨c, hc, hr⟩
    have hmain := getAffectedAux_main g (changed.card + g.card) changed (sortKeys changed)
      (fun n hn => mem_sortKeys.mp hn)
      (fun a ha hanot => absurd (mem_sortKeys.mpr ha) hanot)
      ?_
    · induction hr with
      | refl => exact hmain.1 hc
      | tail _ hstep ihr => exact hmain.2 _ ihr _ hstep
    · have h1 : ((g.image Prod.fst) \ changed).card ≤ (g.image Prod.fst).card :=
        Finset.card_le_card (Finset.sdiff_subset)
      have h2 : (g.image Prod.fst).card ≤ g.card := Finset.card_image_le
      rw [length_sortKeys]
      omega

/-- `changed` is always contained in its affected closure. -/
theorem changed_subset_affected (g : DependencyGraph) (changed : Finset String) :
    changed ⊆ get_affected_nodes g changed := by
  intro x hx
  exact (mem_get_affected_nodes g changed x).mpr ⟨x, hx, Relation.ReflTransGen.refl⟩

/- ------------------------------------------------------------------ -/
/- Dictionary (association list) lemmas.                               -/
/- ------------------------------------------------------------------ -/

theorem lookup_setEntry_self (l : List (String × CacheEntry)) (k : String) (e : CacheEntry) :
    List.lookup k (setEntry l k e) = some e := by
  induction l with
  | nil => simp [setEntry, List.lookup]
  | cons p t ih =>
      rcases p with ⟨k', e'⟩
      by_cases h : k' = k
      · simp [setEntry, h, List.lookup]
      · have hne : (k == k') = false := beq_eq_false_iff_ne.mpr (Ne.symm h)
        simp [setEntry, h, List.lookup, hne, ih]

theorem lookup_setEntry_ne (l : List (String × CacheEntry)) {k k' : String} (e : CacheEntry)
    (h : k' ≠ k) : List.lookup k' (setEntry l k e) = List.lookup k' l := by
  have hne : (k' == k) = false := beq_eq_false_iff_ne.mpr h
  induction l with
  | nil => simp [setEntry, List.lookup, hne]
  | cons p t ih =>
      rcases p with ⟨k₀, e₀⟩
      by_cases h₀ : k₀ = k
      · subst h₀
        simp [setEntry, List.lookup, hne]
      · by_cases h₁ : k' = k₀
        · subst h₁
          simp [setEntry, h₀, List.lookup]
        · have hne₁ : (k' == k₀) = false := beq_eq_false_iff_ne.mpr h₁
          simp [setEntry, h₀, List.lookup, hne₁, ih]

theorem mem_setEntry {l : List (String × CacheEntry)} {k : String} {e : CacheEntry}
    {p : String × CacheEntry} (hp : p ∈ setEntry l k e) : p = (k, e) ∨ p ∈ l := by
  induction l with
  | nil => simp [setEntry] at hp; simp [hp]
  | cons q t ih =>
      rcases q with ⟨k', e'⟩
      by_cases h : k' = k
      · simp only [setEntry, h, if_pos rfl] at hp
        rcases List.mem_cons.mp hp with h₁ | h₁
        · exact Or.inl h₁
        · exact Or.inr (List.mem_cons_of_mem _ h₁)
      · simp only [setEntry, h, if_neg h] at hp
        rcases List.mem_cons.mp hp with h₁ | h₁
        · exact Or.inr (List.mem_cons.mpr (Or.inl h₁))
        · rcases ih h₁ with h₂ | h₂
          · exact Or.inl h₂
          · exact Or.inr (List.mem_cons_of_mem _ h₂)

theorem mem_eraseKey {l : List (String × CacheEntry)} {k : String}
    {p : String × CacheEntry} (hp : p ∈ eraseKey l k) : p ∈ l := by
  induction l with
  | nil => simp [eraseKey] at hp
  | cons q t ih =>
      rcases q with ⟨k', e'⟩
      by_cases h : k' = k
      · simp only [eraseKey, h, if_pos rfl] at hp
        exact List.mem_cons_of_mem _ hp
      · simp only [eraseKey, h, if_neg h] at hp
        rcases List.mem_cons.mp hp with h₁ | h₁
        · exact List.mem_cons.mpr (Or.inl h₁)
        · exact List.mem_cons_of_mem _ (ih h₁)

theorem sumSizes_nil : sumSizes [] = 0 := rfl

theorem sumSizes_cons (p : String × CacheEntry) (l : List (String × CacheEntry)) :
    sumSizes (p :: l) = (p.2.size_bytes : Int) + sumSizes l := by
  simp [sumSizes]

theorem sumSizes_nonneg (l : List (String × CacheEntry)) : 0 ≤ sumSizes l := by
  induction l with
  | nil => simp [sumSizes]
  | cons p t ih =>
      rw [sumSizes_cons]
      have : (0 : Int) ≤ (p.2.size_bytes : Int) := Int.natCast_nonneg _
      omega

theorem sumSizes_setEntry_some {l : List (String × CacheEntry)} {k : String}
    {old : CacheEntry} (h : List.lookup k l = some old) (e : CacheEntry) :
    sumSizes (setEntry l k e) = sumSizes l + (e.size_bytes : Int) - (old.size_bytes : Int) := by
  induction l with
  | nil => simp [List.lookup] at h
  | cons p t ih =>
      rcases p with ⟨k', e'⟩
      by_cases hk : k' = k
      · subst hk
        simp only [List.lookup, beq_self_eq_true] at h
        have hold : e' = old := by simpa using h
        subst hold
        simp only [setEntry, if_true]
        rw [sumSizes_cons, sumSizes_cons]
        ring
      · have hne : (k == k') = false := beq_eq_false_iff_ne.mpr (Ne.symm hk)
        simp only [List.lookup, hne] at h
        simp only [setEntry, if_neg hk]
        rw [sumSizes_cons, sumSizes_cons, ih h]
        ring

theorem sumSizes_setEntry_none {l : List (String × CacheEntry)} {k : String}
    (h : List.lookup k l = none) (e : CacheEntry) :
    sumSizes (setEntry l k e) = sumSizes l + (e.size_bytes : Int) := by
  induction l with
  | nil => simp [setEntry, sumSizes]
  | cons p t ih =>
      rcases p with ⟨k', e'⟩
      by_cases hk : k' = k
      · subst hk
        simp [List.lookup] at h
      · have hne : (k == k') = false := beq_eq_false_iff_ne.mpr (Ne.symm hk)
        simp only [List.lookup, hne] at h
        simp only [setEntry, if_neg hk]
        rw [sumSizes_cons, sumSizes_cons, ih h]
        ring

theorem sumSizes_eraseKey {l : List (String × CacheEntry)} {k : String}
    {old : CacheEntry} (h : List.lookup k l = some old) :
    sumSizes (eraseKey l k) = sumSizes l - (old.size_bytes : Int) := by
  induction l with
  | nil => simp [List.lookup] at h
  | cons p t ih =>
      rcases p with ⟨k', e'⟩
      by_cases hk : k' = k
      · subst hk
        simp only [List.lookup, beq_self_eq_true] at h
        have hold : e' = old := by simpa using h
        subst hold
        simp only [eraseKey, if_true]
        rw [sumSizes_cons]
        ring
      · have hne : (k == k') = false := beq_eq_false_iff_ne.mpr (Ne.symm hk)
        simp only [List.lookup, hne] at h
        simp only [eraseKey, if_neg hk]
        rw [sumSizes_cons, sumSizes_cons, ih h]
        ring

theorem length_eraseKey {l : List (String × CacheEntry)} {k : String}
    {old : CacheEntry} (h : List.lookup k l = some old) :
    (eraseKey l k).length + 1 = l.length := by
  induction l with
  | nil => simp [List.lookup] at h
  | cons p t ih =>
      rcases p with ⟨k', e'⟩
      by_cases hk : k' = k
      · subst hk
        simp [eraseKey]
      · have hne : (k == k') = false := beq_eq_false_iff_ne.mpr (Ne.symm hk)
        simp only [List.lookup, hne] at h
        simp only [eraseKey, if_neg hk, List.length_cons]
        rw [← ih h]

theorem lookup_isSome_of_mem {l : List (String × CacheEntry)} {k : String}
    {e : CacheEntry} (h : (k, e) ∈ l) : ∃ e', List.lookup k l = some e' := by
  induction l with
  | nil => simp at h
  | cons p t ih =>
      rcases p with ⟨k', e'⟩
      by_cases hk : k = k'
      · subst hk
        exact ⟨e', by simp [List.lookup]⟩
      · have hne : (k == k') = false := beq_eq_false_iff_ne.mpr hk
        rcases List.mem_cons.mp h with h₁ | h₁
        · exact absurd (congrArg Prod.fst h₁) hk
        · rcases ih h₁ with ⟨e'', he''⟩
          exact ⟨e'', by simp [List.lookup, hne, he'']⟩

/- ------------------------------------------------------------------ -/
/- Lemmas about the stable minimum selection (`min(keys, key=f)`).     -/
/- ------------------------------------------------------------------ -/

theorem foldlMin_mem (f : CacheEntry → Nat) :
    ∀ (t : List (String × CacheEntry)) (b : String × CacheEntry),
      t.foldl (fun best q => if f q.2 < f best.2 then q else best) b = b ∨
      t.foldl (fun best q => if f q.2 < f best.2 then q else best) b ∈ t := by
  intro t
  induction t with
  | nil => intro b; exact Or.inl rfl
  | cons q t ih =>
      intro b
      simp only [List.foldl_cons]
      by_cases h : f q.2 < f b.2
      · rw [if_pos h]
        rcases ih q with h₁ | h₁
        · exact Or.inr (List.mem_cons.mpr (Or.inl h₁))
        · exact Or.inr (List.mem_cons_of_mem _ h₁)
      · rw [if_neg h]
        rcases ih b with h₁ | h₁
        · exact Or.inl h₁
        · exact Or.inr (List.mem_cons_of_mem _ h₁)

theorem foldlMin_le_init (f : CacheEntry → Nat) :
    ∀ (t : List (String × CacheEntry)) (b : String × CacheEntry),
      f (t.foldl (fun best q => if f q.2 < f best.2 then q else best) b).2 ≤ f b.2 := by
  intro t
  induction t with
  | nil => intro b; exact Nat.le_refl _
  | cons q t ih =>
      intro b
      simp only [List.foldl_cons]
      by_cases h : f q.2 < f b.2
      · rw [if_pos h]
        exact Nat.le_trans (ih q) (Nat.le_of_lt h)
      · rw [if_neg h]
        exact ih b

theorem foldlMin_le_mem (f : CacheEntry → Nat) :
    ∀ (t : List (String × CacheEntry)) (b : String × CacheEntry),
      ∀ q ∈ t, f (t.foldl (fun best q => if f q.2 < f best.2 then q else best) b).2 ≤ f q.2 := by
  intro t
  induction t with
  | nil => intro b q hq; simp at hq
  | cons p t ih =>
      intro b q hq
      simp only [List.foldl_cons]
      rcases List.mem_cons.mp hq with h₁ | h₁
      · subst h₁
        by_cases h : f q.2 < f b.2
        · rw [if_pos h]; exact foldlMin_le_init f t q
        · rw [if_neg h]
          exact Nat.le_trans (foldlMin_le_init f t b) (Nat.le_of_not_lt h)
      · by_cases h : f p.2 < f b.2
        · rw [if_pos h]; exact ih p q h₁
        · rw [if_neg h]; exact ih b q h₁

theorem minByMeasure_mem {f : CacheEntry → Nat} {l : List (String × CacheEntry)}
    {p : String × CacheEntry} (h : minByMeasure f l = some p) : p ∈ l := by
  cases l with
  | nil => simp [minByMeasure] at h
  | cons q t =>
      simp only [minByMeasure, Option.some.injEq] at h
      subst h
      rcases foldlMin_mem f t q with h₁ | h₁
      · rw [h₁]
        exact List.mem_cons_self q t
      · exact List.mem_cons_of_mem _ h₁

theorem minByMeasure_le {f : CacheEntry → Nat} {l : List (String × CacheEntry)}
    {p : String × CacheEntry} (h : minByMeasure f l = some p) :
    ∀ q ∈ l, f p.2 ≤ f q.2 := by
  cases l with
  | nil => simp [minByMeasure] at h
  | cons r t =>
      simp only [minByMeasure, Option.some.injEq] at h
      subst h
      intro q hq
      rcases List.mem_cons.mp hq with h₁ | h₁
      · subst h₁
        exact foldlMin_le_init f t q
      · exact foldlMin_le_mem f t r q h₁

theorem minByMeasure_isSome {f : CacheEntry → Nat} {l : List (String × CacheEntry)}
    (h : l ≠ []) : ∃ p, minByMeasure f l = some p := by
  cases l with
  | nil => exact absurd rfl h
  | cons q t => exact ⟨_, rfl⟩

/- ------------------------------------------------------------------ -/
/- Shape lemmas for eviction and the put loop.                         -/
/- ------------------------------------------------------------------ -/

theorem evict_one_bad {c : TemporalCache} (h1 : c.eviction_policy ≠ "lru")
    (h2 : c.eviction_policy ≠ "lfu") : evict_one c = c := by
  simp [evict_one, h1, h2]

/-- Every `_evict_one` call either leaves the cache untouched (no policy
branch taken, or the cache is empty) or removes exactly one stored entry,
subtracting its size. -/
theorem evict_one_cases (c : TemporalCache) :
    evict_one c = c ∨
    ∃ k e, List.lookup k c.cache = some e ∧
      evict_one c =
        { c with current_size_bytes := c.current_size_bytes - (e.size_bytes : Int)
                 cache := eraseKey c.cache k
                 evictions := c.evictions + 1 } := by
  by_cases h1 : c.eviction_policy = "lru"
  · cases hmin : minByMeasure (fun e => e.timestamp) c.cache with
    | none => exact Or.inl (by simp [evict_one, h1, hmin])
    | some p =>
        rcases p with ⟨k, e₀⟩
        cases hlook : List.lookup k c.cache with
        | none => exact Or.inl (by simp [evict_one, h1, hmin, hlook])
        | some e => exact Or.inr ⟨k, e, hlook, by simp [evict_one, h1, hmin, hlook]⟩
  · by_cases h2 : c.eviction_policy = "lfu"
    · cases hmin : minByMeasure (fun e => e.hit_count) c.cache with
      | none => exact Or.inl (by simp [evict_one, h1, h2, hmin])
      | some p =>
          rcases p with ⟨k, e₀⟩
          cases hlook : List.lookup k c.cache with
          | none => exact Or.inl (by simp [evict_one, h1, h2, hmin, hlook])
          | some e => exact Or.inr ⟨k, e, hlook, by simp [evict_one, h1, h2, hmin, hlook]⟩
    · exact Or.inl (evict_one_bad h1 h2)

/-- For a policy that actually evicts ("lru"/"lfu") and a non-empty cache,
`_evict_one` removes exactly one entry. -/
theorem evict_one_spec {c : TemporalCache}
    (hp : c.eviction_policy = "lru" ∨ c.eviction_policy = "lfu")
    (hne : c.cache ≠ []) :
    ∃ k e, List.lookup k c.cache = some e ∧
      evict_one c =
        { c with current_size_bytes := c.current_size_bytes - (e.size_bytes : Int)
                 cache := eraseKey c.cache k
                 evictions := c.evictions + 1 } := by
  rcases hp with h1 | h2
  · obtain ⟨p, hmin⟩ := minByMeasure_isSome (f := fun e => e.timestamp) hne
    rcases p with ⟨k, e₀⟩
    obtain ⟨e, hlook⟩ := lookup_isSome_of_mem (minByMeasure_mem hmin)
    exact ⟨k, e, hlook, by simp [evict_one, h1, hmin, hlook]⟩
  · have h1 : c.eviction_policy ≠ "lru" := by rw [h2]; decide
    obtain ⟨p, hmin⟩ := minByMeasure_isSome (f := fun e => e.hit_count) hne
    rcases p with ⟨k, e₀⟩
    obtain ⟨e, hlook⟩ := lookup_isSome_of_mem (minByMeasure_mem hmin)
    exact ⟨k, e, hlook, by simp [evict_one, h1, h2, hmin, hlook]⟩

theorem sumInv_evict_one {c : TemporalCache} (h : SumInv c) : SumInv (evict_one c) := by
  rcases evict_one_cases c with heq | ⟨k, e, hlook, heq⟩
  · rw [heq]; exact h
  · rw [heq]
    rcases h with ⟨h₁, h₂⟩
    have hsz : (0 : Int) ≤ (e.size_bytes : Int) := Int.natCast_nonneg _
    constructor
    · show sumSizes (eraseKey c.cache k) ≤ c.current_size_bytes - (e.size_bytes : Int)
      rw [sumSizes_eraseKey hlook]
      omega
    · show c.current_size_bytes - (e.size_bytes : Int) ≤ (c.max_size_bytes : Int)
      omega

theorem clockInv_evict_one {c : TemporalCache} (h : ClockInv c) : ClockInv (evict_one c) := by
  rcases evict_one_cases c with heq | ⟨k, e, hlook, heq⟩
  · rw [heq]; exact h
  · rw [heq]
    intro p hp
    exact h p (mem_eraseKey hp)

theorem evict_one_max (c : TemporalCache) : (evict_one c).max_size_bytes = c.max_size_bytes := by
  rcases evict_one_cases c with heq | ⟨k, e, _, heq⟩ <;> rw [heq]

theorem evict_one_policy (c : TemporalCache) :
    (evict_one c).eviction_policy = c.eviction_policy := by
  rcases evict_one_cases c with heq | ⟨k, e, _, heq⟩ <;> rw [heq]

theorem putLoop_pres (size : Nat) (P : TemporalCache → Prop)
    (hP : ∀ c, P c → P (evict_one c)) :
    ∀ fuel (c c' : TemporalCache) (b : Bool),
      P c → putLoop size fuel c = some (c', b) → P c' := by
  intro fuel
  induction fuel with
  | zero => intro c c' b _ h; simp [putLoop] at h
  | succ fuel ih =>
      intro c c' b hc h
      rw [putLoop] at h
      by_cases h₁ : (c.max_size_bytes : Int) < c.current_size_bytes + (size : Int)
      · rw [if_pos h₁] at h
        by_cases h₂ : c.cache = []
        · rw [if_pos h₂] at h
          cases h
          exact hc
        · rw [if_neg h₂] at h
          exact ih _ _ _ (hP c hc) h
      · rw [if_neg h₁] at h
        cases h
        exact hc

theorem putLoop_exit (size : Nat) :
    ∀ fuel (c c' : TemporalCache) (b : Bool), putLoop size fuel c = some (c', b) →
      (b = true → c'.current_size_bytes + (size : Int) ≤ (c'.max_size_bytes : Int)) ∧
      (b = false → c'.cache = []) := by
  intro fuel
  induction fuel with
  | zero => intro c c' b h; simp [putLoop] at h
  | succ fuel ih =>
      intro c c' b h
      rw [putLoop] at h
      by_cases h₁ : (c.max_size_bytes : Int) < c.current_size_bytes + (size : Int)
      · rw [if_pos h₁] at h
        by_cases h₂ : c.cache = []
        · rw [if_pos h₂] at h
          cases h
          refine ⟨fun hb => ?_, fun _ => h₂⟩
          cases hb
        · rw [if_neg h₂] at h
          exact ih _ _ _ h
      · rw [if_neg h₁] at h
        cases h
        refine ⟨fun _ => le_of_not_lt h₁, fun hb => ?_⟩
        cases hb

/-- The store that `put` performs once its eviction loop exits. -/
theorem put_spec {c : TemporalCache} {key : String} {n : Nat} {deps : Finset String}
    {c'' : TemporalCache} (h : TemporalCache.put c key n deps = some c'') :
    ∃ c' b, putLoop (4 * n) (c.cache.length + 1) c = some (c', b) ∧
      ((b = false ∧ c'' = c') ∨
       (b = true ∧ c'' =
         { c' with
           cache := setEntry c'.cache key
             { timestamp := c'.clock, nelement := n, dependencies := deps
               hit_count := 0, size_bytes := 4 * n }
           current_size_bytes := c'.current_size_bytes + ((4 * n : Nat) : Int)
           clock := c'.clock + 1 })) := by
  simp only [TemporalCache.put] at h
  cases hloop : putLoop (4 * n) (c.cache.length + 1) c with
  | none => rw [hloop] at h; cases h
  | some r =>
      rcases r with ⟨c', b⟩
      rw [hloop] at h
      cases b with
      | false =>
          refine ⟨c', false, rfl, Or.inl ⟨rfl, ?_⟩⟩
          cases h
          rfl
      | true =>
          refine ⟨c', true, rfl, Or.inr ⟨rfl, ?_⟩⟩
          cases h
          rfl

theorem put_eq_none {c : TemporalCache} {key : String} {n : Nat} {deps : Finset String}
    (h : putLoop (4 * n) (c.cache.length + 1) c = none) :
    TemporalCache.put c key n deps = none := by
  simp only [TemporalCache.put]
  rw [h]

theorem put_isSome {c : TemporalCache} {key : String} {n : Nat} {deps : Finset String}
    {r : TemporalCache × Bool}
    (h : putLoop (4 * n) (c.cache.length + 1) c = some r) :
    (TemporalCache.put c key n deps).isSome := by
  simp only [TemporalCache.put]
  rw [h]
  cases r with
  | mk c' b => cases b <;> rfl

/- ------------------------------------------------------------------ -/
/- Preservation of the size-accounting invariant.                      -/
/- ------------------------------------------------------------------ -/

theorem sumInv_get (c : TemporalCache) (key : String) (h : SumInv c) :
    SumInv (TemporalCache.get c key).1 := by
  cases hlook : List.lookup key c.cache with
  | none =>
      simp only [TemporalCache.get, hlook]
      exact ⟨h.1, h.2⟩
  | some e =>
      simp only [TemporalCache.get, hlook]
      refine ⟨?_, h.2⟩
      show sumSizes (setEntry c.cache key
        { e with hit_count := e.hit_count + 1, timestamp := c.clock }) ≤ c.current_size_bytes
      rw [sumSizes_setEntry_some hlook]
      have h1 := h.1
      simp only []
      omega

theorem sumInv_put (c : TemporalCache) (key : String) (n : Nat) (deps : Finset String)
    (h : SumInv c) : SumInv ((TemporalCache.put c key n deps).getD c) := by
  cases hput : TemporalCache.put c key n deps with
  | none => simpa using h
  | some c'' =>
      simp only [Option.getD_some]
      obtain ⟨c', b, hloop, hcase⟩ := put_spec hput
      have hc' : SumInv c' :=
        putLoop_pres _ SumInv (fun _ => sumInv_evict_one) _ _ _ _ h hloop
      rcases hcase with ⟨hb, rfl⟩ | ⟨hb, rfl⟩
      · exact hc'
      · subst hb
        have hexit := (putLoop_exit _ _ _ _ _ hloop).1 rfl
        refine ⟨?_, hexit⟩
        show sumSizes (setEntry c'.cache key _) ≤ c'.current_size_bytes + ((4 * n : Nat) : Int)
        cases hl : List.lookup key c'.cache with
        | none =>
            rw [sumSizes_setEntry_none hl]
            have h1 := hc'.1
            simp only []
            omega
        | some old =>
            rw [sumSizes_setEntry_some hl]
            have h0 : (0 : Int) ≤ (old.size_bytes : Int) := Int.natCast_nonneg _
            have h1 := hc'.1
            simp only []
            omega

theorem sumInv_invalidate (keys : List String) :
    ∀ (c : TemporalCache), SumInv c → SumInv (TemporalCache.invalidate c keys) := by
  induction keys with
  | nil => intro c h; exact h
  | cons k ks ih =>
      intro c h
      have hstep : TemporalCache.invalidate c (k :: ks) =
          TemporalCache.invalidate
            (match List.lookup k c.cache with
             | some e =>
                 { c with current_size_bytes := c.current_size_bytes - (e.size_bytes : Int)
                          cache := eraseKey c.cache k }
             | none => c) ks := rfl
      rw [hstep]
      cases hlook : List.lookup k c.cache with
      | none => exact ih c h
      | some e =>
          refine ih _ ⟨?_, ?_⟩
          · show sumSizes (eraseKey c.cache k) ≤ c.current_size_bytes - (e.size_bytes : Int)
            rw [sumSizes_eraseKey hlook]
            have h1 := h.1
            omega
          · show c.current_size_bytes - (e.size_bytes : Int) ≤ (c.max_size_bytes : Int)
            have h0 : (0 : Int) ≤ (e.size_bytes : Int) := Int.natCast_nonneg _
            have h2 := h.2
            omega

theorem sumInv_clear (c : TemporalCache) (h : SumInv c) : SumInv c.clear := by
  refine ⟨le_refl 0, ?_⟩
  show (0 : Int) ≤ (c.max_size_bytes : Int)
  have h1 := sumSizes_nonneg c.cache
  have h2 := h.1
  have h3 := h.2
  omega

theorem sumInv_stepOp (c : TemporalCache) (op : CacheOp) (h : SumInv c) :
    SumInv (stepOp c op) := by
  cases op with
  | put k n d => exact sumInv_put c k n d h
  | get k => exact sumInv_get c k h
  | invalidate ks => exact sumInv_invalidate ks c h
  | clear => exact sumInv_clear c h

theorem sumInv_foldl (ops : List CacheOp) :
    ∀ (c : TemporalCache), SumInv c → SumInv (ops.foldl stepOp c) := by
  induction ops with
  | nil => intro c h; exact h
  | cons op ops ih =>
      intro c h
      rw [List.foldl_cons]
      exact ih _ (sumInv_stepOp c op h)

theorem sumInv_runOps (cap : Nat) (policy : String) (ops : List CacheOp) :
    SumInv (runOps (mkTemporalCache cap policy) ops) :=
  sumInv_foldl ops _ ⟨le_refl 0, Int.natCast_nonneg _⟩

/- ------------------------------------------------------------------ -/
/- Preservation of the clock invariant.                                -/
/- ------------------------------------------------------------------ -/

theorem clockInv_get (c : TemporalCache) (key : String) (h : ClockInv c) :
    ClockInv (TemporalCache.get c key).1 := by
  cases hlook : List.lookup key c.cache with
  | none =>
      simp only [TemporalCache.get, hlook]
      exact fun p hp => Nat.lt_of_lt_of_le (h p hp) (Nat.le_refl _)
  | some e =>
      simp only [TemporalCache.get, hlook]
      intro p hp
      rcases mem_setEntry hp with h₁ | h₁
      · subst h₁
        exact Nat.lt_succ_self _
      · exact Nat.lt_succ_of_lt (h p h₁)

theorem clockInv_put (c : TemporalCache) (key : String) (n : Nat) (deps : Finset String)
    (h : ClockInv c) : ClockInv ((TemporalCache.put c key n deps).getD c) := by
  cases hput : TemporalCache.put c key n deps with
  | none => simpa using h
  | some c'' =>
      simp only [Option.getD_some]
      obtain ⟨c', b, hloop, hcase⟩ := put_spec hput
      have hc' : ClockInv c' :=
        putLoop_pres _ ClockInv (fun _ => clockInv_evict_one) _ _ _ _ h hloop
      rcases hcase with ⟨hb, rfl⟩ | ⟨hb, rfl⟩
      · exact hc'
      · intro p hp
        rcases mem_setEntry hp with h₁ | h₁
        · subst h₁
          exact Nat.lt_succ_self _
        · exact Nat.lt_succ_of_lt (hc' p h₁)

theorem clockInv_invalidate (keys : List String) :
    ∀ (c : TemporalCache), ClockInv c → ClockInv (TemporalCache.invalidate c keys) := by
  induction keys with
  | nil => intro c h; exact h
  | cons k ks ih =>
      intro c h
      have hstep : TemporalCache.invalidate c (k :: ks) =
          TemporalCache.invalidate
            (match List.lookup k c.cache with
             | some e =>
                 { c with current_size_bytes := c.current_size_bytes - (e.size_bytes : Int)
                          cache := eraseKey c.cache k }
             | none => c) ks := rfl
      rw [hstep]
      cases hlook : List.lookup k c.cache with
      | none => exact ih c h
      | some e =>
          refine ih _ ?_
          intro p hp
          exact h p (mem_eraseKey hp)

theorem clockInv_clear (c : TemporalCache) (_ : ClockInv c) : ClockInv c.clear := by
  intro p hp
  simp [TemporalCache.clear] at hp

theorem clockInv_stepOp (c : TemporalCache) (op : CacheOp) (h : ClockInv c) :
    ClockInv (stepOp c op) := by
  cases op with
  | put k n d => exact clockInv_put c k n d h
  | get k => exact clockInv_get c k h
  | invalidate ks => exact clockInv_invalidate ks c h
  | clear => exact clockInv_clear c h

theorem clockInv_foldl (ops : List CacheOp) :
    ∀ (c : TemporalCache), ClockInv c → ClockInv (ops.foldl stepOp c) := by
  induction ops with
  | nil => intro c h; exact h
  | cons op ops ih =>
      intro c h
      rw [List.foldl_cons]
      exact ih _ (clockInv_stepOp c op h)

theorem clockInv_runOps (cap : Nat) (policy : String) (ops : List CacheOp) :
    ClockInv (runOps (mkTemporalCache cap policy) ops) :=
  clockInv_foldl ops _ (fun p hp => absurd hp (List.not_mem_nil p))

/-- A `get` on a present key refreshes its timestamp to the current clock
tick, which (under the clock invariant) strictly exceeds every other stored
timestamp. -/
theorem get_refresh_max {c : TemporalCache} (hinv : ClockInv c) {key : String}
    {e : CacheEntry} (hlook : List.lookup key c.cache = some e) :
    ∃ e', List.lookup key (TemporalCache.get c key).1.cache = some e' ∧
      e'.timestamp = c.clock ∧
      ∀ p ∈ (TemporalCache.get c key).1.cache, p.1 ≠ key →
        p.2.timestamp < e'.timestamp := by
  simp only [TemporalCache.get, hlook]
  refine ⟨{ e with hit_count := e.hit_count + 1, timestamp := c.clock },
    lookup_setEntry_self _ _ _, rfl, ?_⟩
  intro p hp hne
  rcases mem_setEntry hp with h₁ | h₁
  · exact absurd (congrArg Prod.fst h₁) hne
  · exact hinv p h₁

/- ------------------------------------------------------------------ -/
/- Termination and divergence of the eviction loop.                    -/
/- ------------------------------------------------------------------ -/

theorem putLoop_isSome_of_policy (size : Nat) :
    ∀ fuel (c : TemporalCache),
      (c.eviction_policy = "lru" ∨ c.eviction_policy = "lfu") →
      c.cache.length < fuel → ∃ r, putLoop size fuel c = some r := by
  intro fuel
  induction fuel with
  | zero => intro c _ h; exact absurd h (Nat.not_lt_zero _)
  | succ fuel ih =>
      intro c hp hlen
      rw [putLoop]
      by_cases h₁ : (c.max_size_bytes : Int) < c.current_size_bytes + (size : Int)
      · rw [if_pos h₁]
        by_cases h₂ : c.cache = []
        · rw [if_pos h₂]
          exact ⟨(c, false), rfl⟩
        · rw [if_neg h₂]
          obtain ⟨k, e, hlook, heq⟩ := evict_one_spec hp h₂
          have hlen' : (evict_one c).cache.length < fuel := by
            rw [heq]
            have herase := length_eraseKey hlook
            simp only []
            omega
          have hp' : (evict_one c).eviction_policy = "lru" ∨
              (evict_one c).eviction_policy = "lfu" := by
            rw [evict_one_policy]
            exact hp
          exact ih (evict_one c) hp' hlen'
      · rw [if_neg h₁]
        exact ⟨(c, true), rfl⟩

theorem putLoop_none_of_bad (size : Nat) (c : TemporalCache)
    (h1 : c.eviction_policy ≠ "lru") (h2 : c.eviction_policy ≠ "lfu")
    (hne : c.cache ≠ [])
    (hover : (c.max_size_bytes : Int) < c.current_size_bytes + (size : Int)) :
    ∀ fuel, putLoop size fuel c = none := by
  intro fuel
  induction fuel with
  | zero => rfl
  | succ fuel ih =>
      rw [putLoop, if_pos hover, if_neg hne, evict_one_bad h1 h2]
      exact ih

/-- When the incoming buffer exceeds the capacity by itself, the eviction
loop (under a policy that actually evicts) empties the whole cache and then
discards the put, leaving the running total diminished by exactly the stored
sum. -/
theorem putLoop_discard_all (size : Nat) :
    ∀ (len : Nat) (c : TemporalCache), c.cache.length = len →
      (c.eviction_policy = "lru" ∨ c.eviction_policy = "lfu") →
      sumSizes c.cache ≤ c.current_size_bytes →
      (c.max_size_bytes : Int) < (size : Int) →
      ∀ fuel, len < fuel →
        ∃ c', putLoop size fuel c = some (c', false) ∧ c'.cache = [] ∧
          c'.current_size_bytes = c.current_size_bytes - sumSizes c.cache ∧
          c'.max_size_bytes = c.max_size_bytes := by
  intro len
  induction len with
  | zero =>
      intro c hlen hp hsum hover fuel hfuel
      have hnil : c.cache = [] := List.length_eq_zero.mp hlen
      cases fuel with
      | zero => exact absurd hfuel (Nat.not_lt_zero _)
      | succ fuel =>
          have h0 : 0 ≤ sumSizes c.cache := sumSizes_nonneg _
          have hcond : (c.max_size_bytes : Int) < c.current_size_bytes + (size : Int) := by
            omega
          rw [putLoop, if_pos hcond, if_pos hnil]
          refine ⟨c, rfl, hnil, ?_, rfl⟩
          rw [hnil, sumSizes_nil]
          omega
  | succ len ih =>
      intro c hlen hp hsum hover fuel hfuel
      have hne : c.cache ≠ [] := by
        intro h
        rw [h] at hlen
        simp at hlen
      cases fuel with
      | zero => exact absurd hfuel (Nat.not_lt_zero _)
      | succ fuel =>
          have h0 : 0 ≤ sumSizes c.cache := sumSizes_nonneg _
          have hcond : (c.max_size_bytes : Int) < c.current_size_bytes + (size : Int) := by
            omega
          rw [putLoop, if_pos hcond, if_neg hne]
          obtain ⟨k, e, hlook, heq⟩ := evict_one_spec hp hne
          have hlen' : (evict_one c).cache.length = len := by
            rw [heq]
            have herase := length_eraseKey hlook
            simp only []
            omega
          have hp' : (evict_one c).eviction_policy = "lru" ∨
              (evict_one c).eviction_policy = "lfu" := by
            rw [evict_one_policy]
            exact hp
          have hsum' : sumSizes (evict_one c).cache ≤ (evict_one c).current_size_bytes := by
            rw [heq]
            simp only []
            rw [sumSizes_eraseKey hlook]
            omega
          have hover' : ((evict_one c).max_size_bytes : Int) < (size : Int) := by
            rw [heq]
            exact hover
          obtain ⟨c', hres, hnil', hcur', hmax'⟩ :=
            ih (evict_one c) hlen' hp' hsum' hover' fuel (by omega)
          refine ⟨c', hres, hnil', ?_, ?_⟩
          · rw [hcur', heq]
            simp only []
            rw [sumSizes_eraseKey hlook]
            ring
          · rw [hmax', heq]

theorem put_of_loop_false {c : TemporalCache} {key : String} {n : Nat}
    {deps : Finset String} {c' : TemporalCache}
    (h : putLoop (4 * n) (c.cache.length + 1) c = some (c', false)) :
    TemporalCache.put c key n deps = some c' := by
  simp only [TemporalCache.put]
  rw [h]

/- ------------------------------------------------------------------ -/
/- Engine-level lemmas.                                                -/
/- ------------------------------------------------------------------ -/

theorem except_error_bind {ε α β : Type} (p : ε) (f : α → Except ε β) :
    (Except.error p >>= f) = Except.error p := rfl

theorem except_ok_bind {ε α β : Type} (x : α) (f : α → Except ε β) :
    (Except.ok x >>= f) = f x := rfl

theorem get_dependencies_empty (n : String) :
    get_dependencies (∅ : DependencyGraph) n = ∅ := by
  simp [get_dependencies]

theorem get_dependents_empty (n : String) :
    get_dependents (∅ : DependencyGraph) n = ∅ := by
  simp [get_dependents]

theorem get_affected_nodes_empty (changed : Finset String) :
    get_affected_nodes (∅ : DependencyGraph) changed = changed := by
  ext x
  rw [mem_get_affected_nodes]
  constructor
  · rintro ⟨c, hc, hr⟩
    rcases Relation.ReflTransGen.cases_head hr with rfl | ⟨mid, hrel, -⟩
    · exact hc
    · have : mid ∈ get_dependents (∅ : DependencyGraph) c := hrel
      rw [get_dependents_empty] at this
      exact absurd this (Finset.not_mem_empty mid)
  · intro hx
    exact ⟨x, hx, Relation.ReflTransGen.refl⟩

theorem invalidate_of_nil {c : TemporalCache} (h : c.cache = []) :
    ∀ keys, TemporalCache.invalidate c keys = c := by
  intro keys
  induction keys with
  | nil => rfl
  | cons k ks ih =>
      have hstep : TemporalCache.invalidate c (k :: ks) =
          TemporalCache.invalidate
            (match List.lookup k c.cache with
             | some e =>
                 { c with current_size_bytes := c.current_size_bytes - (e.size_bytes : Int)
                          cache := eraseKey c.cache k }
             | none => c) ks := rfl
      rw [hstep]
      have hlook : List.lookup k c.cache = none := by
        rw [h]
        rfl
      rw [hlook]
      exact ih

/-- What a successful recomputation step guarantees: the audio buffer existed
and the frame's slice fit inside it; the buffer reference and frame size are
unchanged. -/
theorem recomputeFrame_ok_spec {a : SparseInferenceEngine} {fid : String}
    {b : SparseInferenceEngine} (h : recomputeFrame a fid = .ok b) :
    b.current_audio = a.current_audio ∧ b.frame_size = a.frame_size ∧
    ∃ len, a.current_audio = some len ∧ (frameIdxOf fid + 1) * a.frame_size ≤ len := by
  simp only [recomputeFrame] at h
  split at h
  next => exact Except.noConfusion h
  next len heq =>
      split at h
      next hle =>
          cases h
          exact ⟨rfl, rfl, len, heq, hle⟩
      next => exact Except.noConfusion h

/-- If the whole recompute loop succeeds, every frame on its list had a
fitting slice in the (unchanged) audio buffer. -/
theorem foldlM_ok_all :
    ∀ (l : List String) (a b : SparseInferenceEngine),
      l.foldlM recomputeFrame a = .ok b →
      ∀ fid ∈ l, ∃ len, a.current_audio = some len ∧
        (frameIdxOf fid + 1) * a.frame_size ≤ len := by
  intro l
  induction l with
  | nil =>
      intro a b _ fid hfid
      exact absurd hfid (List.not_mem_nil fid)
  | cons hd tl ih =>
      intro a b h fid hfid
      have hcons : (hd :: tl).foldlM recomputeFrame a =
          recomputeFrame a hd >>= fun a' => tl.foldlM recomputeFrame a' := rfl
      rw [hcons] at h
      cases hr : recomputeFrame a hd with
      | error p =>
          rw [hr, except_error_bind] at h
          exact Except.noConfusion h
      | ok mid =>
          rw [hr, except_ok_bind] at h
          rcases List.mem_cons.mp hfid with rfl | hfid'
          · exact (recomputeFrame_ok_spec hr).2.2
          · obtain ⟨len, hlen, hle⟩ := ih mid b h fid hfid'
            obtain ⟨haud, hfs, -⟩ := recomputeFrame_ok_spec hr
            rw [haud] at hlen
            rw [hfs] at hle
            exact ⟨len, hlen, hle⟩

/-- The affected closure of an edit, characterized by reachability from the
edited frame range. -/
theorem mem_affectedFrames (e : SparseInferenceEngine) (edit : EditOperation) (x : String) :
    x ∈ affectedFrames e edit ↔
      ∃ i ∈ Finset.Icc (edit.affected_region.1 / e.frame_size)
          (edit.affected_region.2 / e.frame_size),
        Relation.ReflTransGen (DependsRel e.dependency_graph) (frame_id i) x := by
  rw [affectedFrames, mem_get_affected_nodes]
  constructor
  · rintro ⟨c, hc, hr⟩
    rcases Finset.mem_image.mp hc with ⟨i, hi, rfl⟩
    exact ⟨i, hi, hr⟩
  · rintro ⟨i, hi, hr⟩
    exact ⟨frame_id i, Finset.mem_image_of_mem _ hi, hr⟩

/-- The end frame of an edit with a well-ordered region is always on the
recompute list. -/
theorem end_frame_mem_recomputeList (e : SparseInferenceEngine) (edit : EditOperation)
    (hab : edit.affected_region.1 ≤ edit.affected_region.2) :
    frame_id (edit.affected_region.2 / e.frame_size) ∈ recomputeList e edit := by
  apply mem_sortKeys.mpr
  apply changed_subset_affected
  apply Finset.mem_image_of_mem
  exact Finset.mem_Icc.mpr ⟨Nat.div_le_div_right hab, Nat.le_refl _⟩

/-- An edit whose end frame's slice does not fit in the audio buffer makes
`apply_edit` raise (no clamping happens anywhere). -/
theorem apply_edit_oob_error {e : SparseInferenceEngine} {edit : EditOperation} {L : Nat}
    (haud : e.current_audio = some L)
    (hab : edit.affected_region.1 ≤ edit.affected_region.2)
    (hoob : L < ((edit.affected_region.2 / e.frame_size) + 1) * e.frame_size)
    (hparse : frameIdxOf (frame_id (edit.affected_region.2 / e.frame_size)) =
      edit.affected_region.2 / e.frame_size) :
    ∃ p, apply_edit e edit = .error p := by
  cases hfold : (recomputeList e edit).foldlM recomputeFrame
      { e with cache := e.cache.invalidate (sortKeys (affectedFrames e edit)) } with
  | error p =>
      refine ⟨p, ?_⟩
      simp only [apply_edit]
      rw [hfold]
  | ok e₂ =>
      exfalso
      obtain ⟨len, hlen, hle⟩ := foldlM_ok_all _ _ _ hfold _
        (end_frame_mem_recomputeList e edit hab)
      have hlen' : e.current_audio = some len := hlen
      rw [haud] at hlen'
      cases hlen'
      have hle' : (frameIdxOf (frame_id (edit.affected_region.2 / e.frame_size)) + 1)
          * e.frame_size ≤ L := hle
      rw [hparse] at hle'
      exact absurd hle' (Nat.not_le_of_lt hoob)

/-- `apply_edit` on a freshly constructed engine: the first affected frame is
recomputed and stored in the cache, and only then does the write to the absent
audio buffer raise a `TypeError`; the dependency graph stays empty. -/
theorem apply_edit_uninitialized {cap fs : Nat} (edit : EditOperation)
    (hab : edit.affected_region.1 ≤ edit.affected_region.2)
    (hcap : 4 * fs ≤ cap) :
    ∃ st, apply_edit (mkEngine cap fs) edit =
        .error ("TypeError: NoneType object is not subscriptable", st) ∧
      st.cache.cache.length = 1 ∧ st.dependency_graph = (∅ : DependencyGraph) := by
  -- the recompute list is nonempty
  obtain ⟨hd, tl, hlist⟩ : ∃ hd tl, recomputeList (mkEngine cap fs) edit = hd :: tl := by
    have hmem := end_frame_mem_recomputeList (mkEngine cap fs) edit hab
    cases hl : recomputeList (mkEngine cap fs) edit with
    | nil =>
        rw [hl] at hmem
        exact absurd hmem (List.not_mem_nil _)
    | cons hd tl => exact ⟨hd, tl, rfl⟩
  -- invalidation is a no-op on the fresh (empty) cache
  have he₁ : ({ mkEngine cap fs with
      cache := (mkEngine cap fs).cache.invalidate
        (sortKeys (affectedFrames (mkEngine cap fs) edit)) } : SparseInferenceEngine) =
      mkEngine cap fs := by
    rw [invalidate_of_nil rfl]
  -- the put of the first recomputed frame stores one entry
  have hcond : ¬ ((mkEngine cap fs).cache.max_size_bytes : Int) <
      (mkEngine cap fs).cache.current_size_bytes + ((4 * fs : Nat) : Int) := by
    show ¬ (cap : Int) < 0 + ((4 * fs : Nat) : Int)
    have : ((4 * fs : Nat) : Int) ≤ (cap : Int) := Int.ofNat_le.mpr hcap
    omega
  have hloop : putLoop (4 * fs) ((mkEngine cap fs).cache.cache.length + 1)
      (mkEngine cap fs).cache = some ((mkEngine cap fs).cache, true) := by
    rw [putLoop, if_neg hcond]
  have hput : TemporalCache.put (mkEngine cap fs).cache hd fs (∅ : Finset String) =
      some { (mkEngine cap fs).cache with
        cache := setEntry (mkEngine cap fs).cache.cache hd
          { timestamp := (mkEngine cap fs).cache.clock, nelement := fs
            dependencies := (∅ : Finset String), hit_count := 0, size_bytes := 4 * fs }
        current_size_bytes := (mkEngine cap fs).cache.current_size_bytes + ((4 * fs : Nat) : Int)
        clock := (mkEngine cap fs).cache.clock + 1 } := by
    simp only [TemporalCache.put]
    rw [hloop]
  -- the first recomputation raises after mutating the cache
  have hrec : recomputeFrame (mkEngine cap fs) hd =
      .error ("TypeError: NoneType object is not subscriptable",
        { mkEngine cap fs with
          cache := (TemporalCache.put (mkEngine cap fs).cache hd fs
              (get_dependencies (∅ : DependencyGraph) hd)).getD (mkEngine cap fs).cache }) := by
    rfl
  rw [get_dependencies_empty, hput, Option.getD_some] at hrec
  refine ⟨{ mkEngine cap fs with
      cache := { (mkEngine cap fs).cache with
        cache := setEntry (mkEngine cap fs).cache.cache hd
          { timestamp := (mkEngine cap fs).cache.clock, nelement := fs
            dependencies := (∅ : Finset String), hit_count := 0, size_bytes := 4 * fs }
        current_size_bytes := (mkEngine cap fs).cache.current_size_bytes + ((4 * fs : Nat) : Int)
        clock := (mkEngine cap fs).cache.clock + 1 } }, ?_, ?_, ?_⟩
  · simp only [apply_edit]
    rw [he₁, hlist]
    have hbind : (hd :: tl).foldlM recomputeFrame (mkEngine cap fs) =
        recomputeFrame (mkEngine cap fs) hd >>= fun a' => tl.foldlM recomputeFrame a' := rfl
    rw [hbind, hrec, except_error_bind]
  · rfl
  · rfl

/- ------------------------------------------------------------------ -/
/- The claims.                                                         -/
/- ------------------------------------------------------------------ -/

/-- Claim C1: after `generate_full` has produced the 10-frame buffer with
frame size 512, an edit whose region maps to frame index 8 recomputes exactly
frames 8 and 9 (never 0-7) with `recompute_ratio = 0.2`; in general the
recompute set of `apply_edit` is exactly the downstream closure (under the
dependents relation) of the edited frame range. -/
theorem C1_edit_recompute_minimality :
    (recomputeList e10 edit8 = ["frame_8", "frame_9"] ∧
     resultMetrics (apply_edit e10 edit8) =
       some { frames_recomputed := 2, frames_total := 10, recompute_ratio := 1/5 }) ∧
    (∀ (e : SparseInferenceEngine) (edit : EditOperation) (x : String),
      x ∈ affectedFrames e edit ↔
        ∃ i ∈ Finset.Icc (edit.affected_region.1 / e.frame_size)
            (edit.affected_region.2 / e.frame_size),
          Relation.ReflTransGen (DependsRel e.dependency_graph) (frame_id i) x) := by
  refine ⟨⟨by decide, ?_⟩, mem_affectedFrames⟩
  have h : resultMetrics (apply_edit e10 edit8) =
      some { frames_recomputed := 2, frames_total := 10, recompute_ratio := (2 : ℚ)/10 } := rfl
  rw [h]
  simp only [Option.some.injEq, Metrics.mk.injEq]
  norm_num

/-- Claim C2: `get_affected_nodes` returns exactly `changed` plus everything
transitively reachable through the dependents relation; it is the identity
when no member of `changed` has dependents; and on the 10-node linear chain it
maps `{frame_3}` to `{frame_3, ..., frame_9}` and `{frame_9}` to itself. -/
theorem C2_affected_nodes_closure :
    (∀ (g : DependencyGraph) (changed : Finset String) (x : String),
      x ∈ get_affected_nodes g changed ↔
        ∃ c ∈ changed, Relation.ReflTransGen (DependsRel g) c x) ∧
    (∀ (g : DependencyGraph) (changed : Finset String),
      (∀ c ∈ changed, get_dependents g c = ∅) →
      get_affected_nodes g changed = changed) ∧
    get_affected_nodes chainGraph {"frame_3"} =
      {"frame_3", "frame_4", "frame_5", "frame_6", "frame_7", "frame_8", "frame_9"} ∧
    get_affected_nodes chainGraph {"frame_9"} = {"frame_9"} := by
  refine ⟨mem_get_affected_nodes, ?_, by decide, by decide⟩
  intro g changed hnone
  ext x
  rw [mem_get_affected_nodes]
  constructor
  · rintro ⟨c, hc, hr⟩
    rcases Relation.ReflTransGen.cases_head hr with rfl | ⟨mid, hrel, -⟩
    · exact hc
    · have hmid : mid ∈ get_dependents g c := hrel
      rw [hnone c hc] at hmid
      exact absurd hmid (Finset.not_mem_empty mid)
  · intro hx
    exact ⟨x, hx, Relation.ReflTransGen.refl⟩

/-- Witness for C2: an instantiation of the no-dependents conjunct. -/
theorem C2_affected_nodes_closure_witness :
    get_affected_nodes (∅ : DependencyGraph) {"frame_0"} = {"frame_0"} :=
  C2_affected_nodes_closure.2.1 (∅ : DependencyGraph) {"frame_0"} (by decide)

/-- Counterexample to claim C3: on a 12-frame buffer, an edit at frame 2
recomputes `frame_10` and `frame_11` before `frame_2` — the loop's order is
not ascending in the integer frame index. -/
theorem C3_recompute_order_counterexample :
    recomputeList e12 edit2 = ["frame_10", "frame_11", "frame_2", "frame_3", "frame_4",
      "frame_5", "frame_6", "frame_7", "frame_8", "frame_9"] ∧
    ¬ List.Sorted (· < ·) ((recomputeList e12 edit2).map frameIdxOf) := by
  exact ⟨by decide, by decide⟩

/-- Claim C3 (amended): within one `apply_edit`, the affected frames are
recomputed in ascending lexicographic order of their frame-id strings (Python
`sorted` on the key set); this coincides with ascending numeric frame order
when all affected indices have the same number of digits — e.g. all below 10,
as on the 10-frame buffer — but not in general (`frame_10` sorts before
`frame_2`). -/
theorem C3_recompute_order_lexicographic :
    (∀ (e : SparseInferenceEngine) (edit : EditOperation),
      List.Sorted StrLe (recomputeList e edit)) ∧
    recomputeList e10 edit2 = ["frame_2", "frame_3", "frame_4", "frame_5", "frame_6",
      "frame_7", "frame_8", "frame_9"] ∧
    List.Sorted (· < ·) ((recomputeList e10 edit2).map frameIdxOf) := by
  exact ⟨fun e edit => sortKeys_sorted _, by decide, by decide⟩

/-- Counterexample to claim C4: `apply_edit` on a fresh engine fails with a
`TypeError` from subscripting `None` — not a labelled "uninitialized state"
request error — and only after the cache has been mutated: the engine's empty
cache has gained the recomputed entry `frame_0` by the time of the raise. -/
theorem C4_uninitialized_edit_counterexample :
    resultError (apply_edit eFresh edit0) =
      some "TypeError: NoneType object is not subscriptable" ∧
    (resultErrorState (apply_edit eFresh edit0)).map
      (fun st => st.cache.cache.map Prod.fst) = some ["frame_0"] ∧
    eFresh.cache.cache = [] := by
  exact ⟨by decide, by decide, rfl⟩

/-- Claim C4 (amended): calling `apply_edit` before any `generate_full` does
fail, but with a `TypeError` raised at the audio-buffer write, and partial
mutation does occur: the first affected frame has already been recomputed and
stored in the cache (one new entry) by then; the dependency graph stays
empty.  (Hypotheses: a well-ordered edit region and a frame buffer that fits
the cache capacity, both true of every configuration the source constructs.) -/
theorem C4_uninitialized_edit_mutates :
    ∀ (cap fs : Nat) (edit : EditOperation),
      edit.affected_region.1 ≤ edit.affected_region.2 →
      4 * fs ≤ cap →
      ∃ st, apply_edit (mkEngine cap fs) edit =
          .error ("TypeError: NoneType object is not subscriptable", st) ∧
        st.cache.cache.length = 1 ∧ st.dependency_graph = (∅ : DependencyGraph) :=
  fun _ _ edit hab hcap => apply_edit_uninitialized edit hab hcap

/-- Witness for C4 (amended) at the default configuration. -/
theorem C4_uninitialized_edit_mutates_witness :
    ∃ st, apply_edit (mkEngine 1048576000 512) edit0 =
        .error ("TypeError: NoneType object is not subscriptable", st) ∧
      st.cache.cache.length = 1 ∧ st.dependency_graph = (∅ : DependencyGraph) :=
  C4_uninitialized_edit_mutates 1048576000 512 edit0 (by decide) (by decide)

/-- Counterexample to claim C5: on the 10-frame buffer, an edit whose region
maps to end frame 10 is not clamped — `frame_10` (an index at the current
frame count) is on the recompute list — and the call raises a shape-mismatch
error instead of completing. -/
theorem C5_no_clamp_counterexample :
    resultError (apply_edit e10 edit5) =
      some "RuntimeError: shape mismatch in slice assignment" ∧
    "frame_10" ∈ recomputeList e10 edit5 ∧
    e10.current_length_frames = 10 := by
  exact ⟨by decide, by decide, by decide⟩

/-- Claim C5 (amended): `apply_edit` performs no clamping.  For any edit whose
end frame's slice extends past the audio buffer, the out-of-range end frame is
included in the recompute list, and the call fails (the slice assignment for
the first out-of-range frame it reaches raises) rather than completing.  (The
last hypothesis records that the end frame's key parses back to its index,
which holds for every `frame_<digits>` key.) -/
theorem C5_out_of_range_edit_fails :
    ∀ (e : SparseInferenceEngine) (edit : EditOperation) (L : Nat),
      e.current_audio = some L →
      edit.affected_region.1 ≤ edit.affected_region.2 →
      L < ((edit.affected_region.2 / e.frame_size) + 1) * e.frame_size →
      frameIdxOf (frame_id (edit.affected_region.2 / e.frame_size)) =
        edit.affected_region.2 / e.frame_size →
      frame_id (edit.affected_region.2 / e.frame_size) ∈ recomputeList e edit ∧
      ∃ p, apply_edit e edit = .error p :=
  fun e edit _ haud hab hoob hparse =>
    ⟨end_frame_mem_recomputeList e edit hab, apply_edit_oob_error haud hab hoob hparse⟩

/-- Witness for C5 (amended) on the 10-frame buffer. -/
theorem C5_out_of_range_edit_fails_witness :
    "frame_10" ∈ recomputeList e10 edit5 ∧ ∃ p, apply_edit e10 edit5 = .error p :=
  C5_out_of_range_edit_fails e10 edit5 5120 (by decide) (by decide) (by decide) (by decide)

/-- Claim C6: after every sequence of cache operations (and the evictions they
trigger), the sum of `size_bytes` over the stored entries is at most
`max_size_bytes`. -/
theorem C6_capacity_invariant :
    ∀ (cap : Nat) (policy : String) (ops : List CacheOp),
      sumSizes (runOps (mkTemporalCache cap policy) ops).cache ≤
        ((runOps (mkTemporalCache cap policy) ops).max_size_bytes : Int) :=
  fun cap policy ops =>
    le_trans (sumInv_runOps cap policy ops).1 (sumInv_runOps cap policy ops).2

/-- Counterexample to claim C7: two puts of the same key leave
`current_size_bytes = 80` while the entries actually stored sum to 40 — the
replaced entry's size is never subtracted, so the running total does not equal
the stored sum. -/
theorem C7_size_accounting_counterexample :
    cacheReplaced.current_size_bytes = 80 ∧ sumSizes cacheReplaced.cache = 40 ∧
    cacheReplaced.current_size_bytes ≠ sumSizes cacheReplaced.cache := by
  exact ⟨by decide, by decide, by decide⟩

/-- Claim C7 (amended): a stored put adds the new entry's size to the running
total without subtracting a replaced entry's size, so after any operation
sequence `current_size_bytes` is an upper bound on — but not always equal
to — the sum of `size_bytes` over the stored entries. -/
theorem C7_running_total_upper_bound :
    ∀ (cap : Nat) (policy : String) (ops : List CacheOp),
      sumSizes (runOps (mkTemporalCache cap policy) ops).cache ≤
        (runOps (mkTemporalCache cap policy) ops).current_size_bytes :=
  fun cap policy ops => (sumInv_runOps cap policy ops).1

/-- Claim C8: under the LRU policy, `_evict_one` (the eviction `put` invokes)
removes the stored entry with the smallest timestamp; and a `get` on a present
key of any reachable cache refreshes that entry's timestamp to the current
clock tick, making it strictly the maximum timestamp in the cache (so it is
ordered last for future evictions). -/
theorem C8_lru_eviction_and_recency :
    (∀ c : TemporalCache, c.eviction_policy = "lru" → c.cache ≠ [] →
      ∃ k e₀, minByMeasure (fun e => e.timestamp) c.cache = some (k, e₀) ∧
        (k, e₀) ∈ c.cache ∧
        (∀ q ∈ c.cache, e₀.timestamp ≤ q.2.timestamp) ∧
        (evict_one c).cache = eraseKey c.cache k) ∧
    (∀ (cap : Nat) (ops : List CacheOp) (key : String) (e : CacheEntry),
      List.lookup key (runOps (mkTemporalCache cap "lru") ops).cache = some e →
      ∃ e', List.lookup key
          (TemporalCache.get (runOps (mkTemporalCache cap "lru") ops) key).1.cache = some e' ∧
        ∀ p ∈ (TemporalCache.get (runOps (mkTemporalCache cap "lru") ops) key).1.cache,
          p.1 ≠ key → p.2.timestamp < e'.timestamp) := by
  constructor
  · intro c hp hne
    obtain ⟨q, hmin⟩ := minByMeasure_isSome (f := fun e => e.timestamp) hne
    rcases q with ⟨k, e₀⟩
    obtain ⟨e, hlook⟩ := lookup_isSome_of_mem (minByMeasure_mem hmin)
    refine ⟨k, e₀, hmin, minByMeasure_mem hmin, minByMeasure_le hmin, ?_⟩
    simp [evict_one, hp, hmin, hlook]
  · intro cap ops key e hlook
    obtain ⟨e', hl', -, hmax⟩ := get_refresh_max (clockInv_runOps cap "lru" ops) hlook
    exact ⟨e', hl', hmax⟩

/-- Witness for C8 at concrete caches. -/
theorem C8_lru_eviction_and_recency_witness :
    (∃ k e₀, minByMeasure (fun e => e.timestamp) cacheReplaced.cache = some (k, e₀) ∧
      (k, e₀) ∈ cacheReplaced.cache ∧
      (∀ q ∈ cacheReplaced.cache, e₀.timestamp ≤ q.2.timestamp) ∧
      (evict_one cacheReplaced).cache = eraseKey cacheReplaced.cache k) ∧
    (∃ e', List.lookup "a"
        (TemporalCache.get (runOps (mkTemporalCache 1000 "lru")
          [.put "a" 1 ∅, .put "b" 1 ∅]) "a").1.cache = some e' ∧
      ∀ p ∈ (TemporalCache.get (runOps (mkTemporalCache 1000 "lru")
          [.put "a" 1 ∅, .put "b" 1 ∅]) "a").1.cache,
        p.1 ≠ "a" → p.2.timestamp < e'.timestamp) :=
  ⟨C8_lru_eviction_and_recency.1 cacheReplaced (by decide) (by decide),
   C8_lru_eviction_and_recency.2 1000 [.put "a" 1 ∅, .put "b" 1 ∅] "a"
     { timestamp := 0, nelement := 1, dependencies := ∅, hit_count := 0, size_bytes := 4 }
     (by decide)⟩

/-- Counterexample to claim C9: a put larger than the capacity, arriving after
eviction has emptied a cache whose running total was inflated by a replacing
put, leaves zero entries but `current_size_bytes = 40 ≠ 0`. -/
theorem C9_oversized_put_counterexample :
    (runOps (mkTemporalCache 100 "lru")
      [.put "k" 10 ∅, .put "k" 10 ∅, .put "j" 8 ∅]).cache ≠ [] ∧
    cacheGhost = stepOp (runOps (mkTemporalCache 100 "lru")
      [.put "k" 10 ∅, .put "k" 10 ∅, .put "j" 8 ∅]) (.put "big" 50 ∅) ∧
    4 * 50 > 100 ∧
    cacheGhost.cache = [] ∧ cacheGhost.current_size_bytes = 40 := by
  exact ⟨by decide, by decide, by decide, by decide, by decide⟩

/-- Claim C9 (amended): an oversized put (buffer larger than the capacity)
never raises and always ends with zero entries.  On a freshly constructed
cache the state is completely unchanged, so `current_size_bytes = 0`; in
general (under a policy that actually evicts) eviction empties the cache and
the put is discarded, leaving `current_size_bytes` equal to the previous
running total minus the stored sum — which is nonzero when replacing puts had
inflated the running total. -/
theorem C9_oversized_put_discard :
    (∀ (cap : Nat) (policy key : String) (n : Nat) (deps : Finset String),
      (cap : Int) < ((4 * n : Nat) : Int) →
      TemporalCache.put (mkTemporalCache cap policy) key n deps =
        some (mkTemporalCache cap policy)) ∧
    (∀ (c : TemporalCache) (key : String) (n : Nat) (deps : Finset String),
      (c.eviction_policy = "lru" ∨ c.eviction_policy = "lfu") →
      sumSizes c.cache ≤ c.current_size_bytes →
      (c.max_size_bytes : Int) < ((4 * n : Nat) : Int) →
      ∃ c', TemporalCache.put c key n deps = some c' ∧ c'.cache = [] ∧
        c'.current_size_bytes = c.current_size_bytes - sumSizes c.cache) := by
  constructor
  · intro cap policy key n deps hover
    apply put_of_loop_false
    have hcond : ((mkTemporalCache cap policy).max_size_bytes : Int) <
        (mkTemporalCache cap policy).current_size_bytes + ((4 * n : Nat) : Int) := by
      show (cap : Int) < 0 + ((4 * n : Nat) : Int)
      omega
    rw [putLoop, if_pos hcond,
      if_pos (show (mkTemporalCache cap policy).cache = [] from rfl)]
  · intro c key n deps hp hsum hover
    obtain ⟨c', hloop, hnil, hcur, -⟩ :=
      putLoop_discard_all (4 * n) c.cache.length c rfl hp hsum hover
        (c.cache.length + 1) (Nat.lt_succ_self _)
    exact ⟨c', put_of_loop_false hloop, hnil, hcur⟩

/-- Witness for C9 (amended): a fresh cache and the inflated two-put cache. -/
theorem C9_oversized_put_discard_witness :
    TemporalCache.put (mkTemporalCache 100 "lru") "big" 50 ∅ =
      some (mkTemporalCache 100 "lru") ∧
    (∃ c', TemporalCache.put cacheReplaced "big" 50 ∅ = some c' ∧ c'.cache = [] ∧
      c'.current_size_bytes = cacheReplaced.current_size_bytes - sumSizes cacheReplaced.cache) :=
  ⟨C9_oversized_put_discard.1 100 "lru" "big" 50 ∅ (by decide),
   C9_oversized_put_discard.2 cacheReplaced "big" 50 ∅ (Or.inl (by decide))
     (by decide) (by decide)⟩

/-- Claim C10: under the "lru" or "lfu" policy every `put` terminates (each
eviction strictly shrinks the cache, so `|cache| + 1` loop iterations always
suffice); under any other policy string, a put that needs eviction on a
non-empty cache never terminates, because `_evict_one` removes nothing. -/
theorem C10_put_termination :
    (∀ (c : TemporalCache) (key : String) (n : Nat) (deps : Finset String),
      (c.eviction_policy = "lru" ∨ c.eviction_policy = "lfu") →
      (TemporalCache.put c key n deps).isSome) ∧
    (∀ (c : TemporalCache) (key : String) (n : Nat) (deps : Finset String),
      c.eviction_policy ≠ "lru" → c.eviction_policy ≠ "lfu" → c.cache ≠ [] →
      (c.max_size_bytes : Int) < c.current_size_bytes + ((4 * n : Nat) : Int) →
      TemporalCache.put c key n deps = none) := by
  constructor
  · intro c key n deps hp
    obtain ⟨r, hr⟩ :=
      putLoop_isSome_of_policy (4 * n) (c.cache.length + 1) c hp (Nat.lt_succ_self _)
    exact put_isSome hr
  · intro c key n deps h1 h2 hne hover
    exact put_eq_none (putLoop_none_of_bad (4 * n) c h1 h2 hne hover _)

/-- Witness for C10: a terminating put under "lru" and a diverging put under
the unrecognized policy "fifo". -/
theorem C10_put_termination_witness :
    (TemporalCache.put cacheReplaced "x" 1 ∅).isSome ∧
    TemporalCache.put (runOps (mkTemporalCache 4 "fifo") [.put "a" 1 ∅]) "b" 9 ∅ = none :=
  ⟨C10_put_termination.1 cacheReplaced "x" 1 ∅ (Or.inl (by decide)),
   C10_put_termination.2 (runOps (mkTemporalCache 4 "fifo") [.put "a" 1 ∅]) "b" 9 ∅
     (by decide) (by decide) (by decide) (by decide)⟩
